import Mathlib

/-!
Verification of the CartPole actor-critic notebook.

The repository is a single notebook training an actor-critic agent on the
CartPole environment.  This file gives a shallow embedding of the parts of
the notebook that the claims concern:

* `get_expected_return` — the discounted-return calculator (backward scan
  plus optional standardization);
* `compute_loss` — the combined actor loss and Huber critic loss;
* `run_episode` — the episode runner recording per-step action
  probabilities, value estimates and rewards;
* the reward-history deque (`collections.deque` with `maxlen`) and the
  driving training loop with its early-stopping condition.

Machine floating point is idealized as the real numbers where the source
uses float32 tensors, and as the rationals where only field arithmetic and
order matter (the loop's running mean).  External library calls
(`tf.math.reduce_mean`, `tf.math.reduce_std`, `tf.nn.softmax`,
`tf.random.categorical`, the gym environment) are modelled explicitly as
noted at each definition.
-/

namespace CartPole

/-- Machine epsilon of float32, `np.finfo(np.float32).eps`, which is
exactly `2 ^ (-23)`.  Source: `eps = np.finfo(np.float32).eps.item()`. -/
noncomputable def eps : ℝ := 1 / 2 ^ 23

/-! ## Return calculator (`get_expected_return`) -/

/-- Model of `tf.math.reduce_mean` on a rank-1 tensor: the arithmetic mean
of the list entries. -/
noncomputable def reduce_mean (xs : List ℝ) : ℝ := xs.sum / xs.length

/-- Model of `tf.math.reduce_std` on a rank-1 tensor: the population
standard deviation, the square root of the mean squared deviation from the
mean. -/
noncomputable def reduce_std (xs : List ℝ) : ℝ :=
  Real.sqrt (reduce_mean (xs.map (fun x => (x - reduce_mean xs) ^ 2)))

/-- The backward accumulation loop of `get_expected_return`: the source
iterates over the reversed reward tensor maintaining
`discounted_sum = reward + gamma * discounted_sum` and writes each partial
sum into the output array.  `returnScanRev gamma l s` is that output array
for reversed-reward list `l` and initial accumulator `s` (the source starts
from `tf.constant(0.0)`). -/
noncomputable def returnScanRev (gamma : ℝ) : List ℝ → ℝ → List ℝ
  | [], _ => []
  | r :: rs, s =>
      let s' := r + gamma * s
      s' :: returnScanRev gamma rs s'

/-- Embedding of `get_expected_return(rewards, gamma, standardize=True)`:
reverse the rewards, scan with `discounted_sum = reward + gamma * s`,
reverse back, and if `standardize` is set return
`(returns - reduce_mean returns) / (reduce_std returns + eps)`. -/
noncomputable def get_expected_return (rewards : List ℝ) (gamma : ℝ)
    (standardize : Bool := true) : List ℝ :=
  let returns := (returnScanRev gamma rewards.reverse 0).reverse
  if standardize then
    returns.map (fun g => (g - reduce_mean returns) / (reduce_std returns + eps))
  else
    returns

/-- The unstandardized returns, i.e. the value of `returns` inside
`get_expected_return` just before the `standardize` branch. -/
noncomputable def rawReturns (gamma : ℝ) (rewards : List ℝ) : List ℝ :=
  (returnScanRev gamma rewards.reverse 0).reverse

theorem get_expected_return_false (rewards : List ℝ) (gamma : ℝ) :
    get_expected_return rewards gamma false = rawReturns gamma rewards := rfl

theorem get_expected_return_true (rewards : List ℝ) (gamma : ℝ) :
    get_expected_return rewards gamma true =
      (rawReturns gamma rewards).map
        (fun g => (g - reduce_mean (rawReturns gamma rewards)) /
          (reduce_std (rawReturns gamma rewards) + eps)) := rfl

theorem returnScanRev_length (gamma : ℝ) :
    ∀ (l : List ℝ) (s : ℝ), (returnScanRev gamma l s).length = l.length
  | [], _ => rfl
  | _ :: rs, s => congrArg Nat.succ (returnScanRev_length gamma rs _)

theorem rawReturns_length (gamma : ℝ) (rewards : List ℝ) :
    (rawReturns gamma rewards).length = rewards.length := by
  simp [rawReturns, returnScanRev_length]

theorem returnScanRev_append_singleton (gamma : ℝ) :
    ∀ (l : List ℝ) (a s : ℝ),
      returnScanRev gamma (l ++ [a]) s =
        returnScanRev gamma l s ++
          [a + gamma * (returnScanRev gamma l s).getLastD s]
  | [], a, s => rfl
  | r :: rs, a, s => by
      rw [List.cons_append]
      show (r + gamma * s) :: returnScanRev gamma (rs ++ [a]) (r + gamma * s) =
        ((r + gamma * s) :: returnScanRev gamma rs (r + gamma * s)) ++
          [a + gamma *
            ((r + gamma * s) :: returnScanRev gamma rs (r + gamma * s)).getLastD s]
      rw [returnScanRev_append_singleton gamma rs a (r + gamma * s),
        List.getLastD_cons]
      simp

theorem headD_reverse {α : Type} (l : List α) (d : α) :
    l.reverse.headD d = l.getLastD d := by
  simp [List.headD_eq_head?, List.head?_reverse, List.getLastD_eq_getLast?]

theorem rawReturns_cons (gamma : ℝ) (a : ℝ) (l : List ℝ) :
    rawReturns gamma (a :: l) =
      (a + gamma * (rawReturns gamma l).headD 0) :: rawReturns gamma l := by
  have hhead : (rawReturns gamma l).headD 0 =
      (returnScanRev gamma l.reverse 0).getLastD 0 := by
    unfold rawReturns
    exact headD_reverse _ 0
  unfold rawReturns
  rw [List.reverse_cons, returnScanRev_append_singleton]
  simp [hhead]

/-- Unstandardized returns satisfy the closed form: entry `t` is the
discounted sum of the future rewards `∑ j, gamma ^ j * r (t + j)`. -/
theorem rawReturns_getD (gamma : ℝ) :
    ∀ (rewards : List ℝ) (t : ℕ),
      (rawReturns gamma rewards).getD t 0 =
        ∑ j ∈ Finset.range (rewards.length - t),
          gamma ^ j * rewards.getD (t + j) 0
  | [], t => by simp [rawReturns, returnScanRev]
  | a :: l, 0 => by
      rw [rawReturns_cons]
      have hIH := rawReturns_getD gamma l 0
      have hhead : (rawReturns gamma l).headD 0 = (rawReturns gamma l).getD 0 0 := by
        cases rawReturns gamma l <;> simp
      simp only [List.getD_cons_zero, List.length_cons, Nat.sub_zero,
        Nat.zero_add] at *
      rw [hhead, hIH, Finset.sum_range_succ', Finset.mul_sum]
      simp only [List.getD_cons_succ, List.getD_cons_zero, pow_zero, one_mul]
      rw [add_comm]
      congr 1
      refine Finset.sum_congr rfl (fun j hj => by ring)
  | a :: l, t + 1 => by
      rw [rawReturns_cons]
      have hIH := rawReturns_getD gamma l t
      simp only [List.getD_cons_succ, List.length_cons, Nat.succ_sub_succ]
      rw [hIH]
      refine Finset.sum_congr rfl (fun j hj => ?_)
      rw [Nat.add_right_comm t 1 j, List.getD_cons_succ]

/-- C1: the unstandardized output of `get_expected_return` has the length of
the reward list, and its entry at each timestep `t` is the discounted sum of
future rewards `∑ k ∈ [t, n), gamma ^ (k - t) * r k`; in particular the
entry at the last step equals the last reward. -/
theorem get_expected_return_unstandardized_correct
    (rewards : List ℝ) (gamma : ℝ) (t : ℕ) (h : t < rewards.length) :
    (get_expected_return rewards gamma false).length = rewards.length ∧
    (get_expected_return rewards gamma false).getD t 0 =
      ∑ j ∈ Finset.range (rewards.length - t),
        gamma ^ j * rewards.getD (t + j) 0 ∧
    (get_expected_return rewards gamma false).getD (rewards.length - 1) 0 =
      rewards.getD (rewards.length - 1) 0 := by
  refine ⟨by simp [get_expected_return_false, rawReturns_length], ?_, ?_⟩
  · rw [get_expected_return_false]
    exact rawReturns_getD gamma rewards t
  · rw [get_expected_return_false, rawReturns_getD]
    have hn : 0 < rewards.length := Nat.lt_of_le_of_lt (Nat.zero_le t) h
    have h1 : rewards.length - (rewards.length - 1) = 1 := by omega
    rw [h1]
    simp

/-- Witness for C1 at the reward list `[5, 7]` with `gamma = 2`, `t = 0`. -/
theorem get_expected_return_unstandardized_correct_witness :
    (0 : ℕ) < ([5, 7] : List ℝ).length ∧
    ((get_expected_return [5, 7] 2 false).length = ([5, 7] : List ℝ).length ∧
    (get_expected_return [5, 7] 2 false).getD 0 0 =
      ∑ j ∈ Finset.range (([5, 7] : List ℝ).length - 0),
        (2 : ℝ) ^ j * ([5, 7] : List ℝ).getD (0 + j) 0 ∧
    (get_expected_return [5, 7] 2 false).getD (([5, 7] : List ℝ).length - 1) 0 =
      ([5, 7] : List ℝ).getD (([5, 7] : List ℝ).length - 1) 0) :=
  ⟨by simp, get_expected_return_unstandardized_correct [5, 7] 2 0 (by simp)⟩

/-- C3: the reward sequence `[1, 1, 1]` with `standardize = false` yields
returns `[3, 2, 1]` at `gamma = 1` and `[1.75, 1.5, 1.0]` at `gamma = 0.5`. -/
theorem get_expected_return_concrete_scenarios :
    get_expected_return [1, 1, 1] 1 false = [3, 2, 1] ∧
    get_expected_return [1, 1, 1] (1 / 2) false = [1.75, 1.5, 1.0] := by
  constructor <;>
    · simp only [get_expected_return, returnScanRev, List.reverse_cons,
        List.reverse_nil, List.nil_append, List.cons_append, if_neg,
        Bool.false_eq_true, not_false_iff, List.reverse]
      norm_num

/-- C4: for a constant reward sequence of value `r` and length `n` and any
discount `gamma ∈ (0,1)`, the unstandardized return at step 0 equals the
geometric series value `r * (1 - gamma ^ n) / (1 - gamma)`. -/
theorem get_expected_return_constant_geometric
    (r : ℝ) (n : ℕ) (gamma : ℝ) (h0 : 0 < gamma) (h1 : gamma < 1) :
    (get_expected_return (List.replicate n r) gamma false).getD 0 0 =
      r * (1 - gamma ^ n) / (1 - gamma) := by
  rw [get_expected_return_false, rawReturns_getD]
  simp only [List.length_replicate, Nat.sub_zero]
  have hrep : ∀ j ∈ Finset.range n,
      gamma ^ j * (List.replicate n r).getD (0 + j) 0 = gamma ^ j * r := by
    intro j hj
    rw [Finset.mem_range] at hj
    rw [Nat.zero_add, List.getD_eq_getElem _ _ (by simpa using hj),
      List.getElem_replicate]
  rw [Finset.sum_congr rfl hrep, ← Finset.sum_mul,
    geom_sum_eq (ne_of_lt h1) n]
  have hne : gamma - 1 ≠ 0 := sub_ne_zero.mpr (ne_of_lt h1)
  have hne' : (1 : ℝ) - gamma ≠ 0 := sub_ne_zero.mpr (ne_of_gt h1)
  field_simp
  ring

/-- Witness for C4 at `r = 3`, `n = 2`, `gamma = 1/2`. -/
theorem get_expected_return_constant_geometric_witness :
    (0 : ℝ) < 1 / 2 ∧ (1 : ℝ) / 2 < 1 ∧
    (get_expected_return (List.replicate 2 (3 : ℝ)) (1 / 2) false).getD 0 0 =
      3 * (1 - (1 / 2 : ℝ) ^ 2) / (1 - 1 / 2) :=
  ⟨by norm_num, by norm_num,
    get_expected_return_constant_geometric 3 2 (1 / 2) (by norm_num) (by norm_num)⟩

/-! ## Loss computation (`compute_loss`) -/

/-- Elementwise Keras Huber loss at threshold `delta` (the source uses the
default `delta = 1.0`): quadratic `x ^ 2 / 2` when `|x| ≤ delta` and linear
`delta * (|x| - delta / 2)` beyond, where `x = y_pred - y_true`. -/
noncomputable def huberPoint (delta y_true y_pred : ℝ) : ℝ :=
  let x := y_pred - y_true
  if |x| ≤ delta then x ^ 2 / 2 else delta * (|x| - delta / 2)

/-- Model of `huber_loss = tf.keras.losses.Huber(reduction=Reduction.SUM)`
as applied in `train_step`: the inputs there have shape `[n, 1]`, so the
per-sample mean over the last axis is the elementwise Huber value and the
SUM reduction adds them over the `n` steps. -/
noncomputable def huber_loss (y_true y_pred : List ℝ) : ℝ :=
  (List.zipWith (huberPoint 1) y_true y_pred).sum

/-- Embedding of `compute_loss(action_probs, values, returns)`:
`advantage = returns - values`,
`actor_loss = -sum(log(action_probs) * advantage)`, and the total loss is
`actor_loss + huber_loss(values, returns)`. -/
noncomputable def compute_loss (action_probs values returns : List ℝ) : ℝ :=
  let advantage := List.zipWith (fun g w => g - w) returns values
  let action_log_probs := action_probs.map Real.log
  let actor_loss :=
    -(List.zipWith (fun l a => l * a) action_log_probs advantage).sum
  actor_loss + huber_loss values returns

theorem zipMulSubSum :
    ∀ (p v G : List ℝ), p.length = v.length → v.length = G.length →
      (List.zipWith (fun l a => l * a) (p.map Real.log)
        (List.zipWith (fun g w => g - w) G v)).sum =
      ∑ t ∈ Finset.range p.length,
        Real.log (p.getD t 0) * (G.getD t 0 - v.getD t 0)
  | [], _, _, _, _ => by simp
  | _ :: _, [], _, h1, _ => by simp at h1
  | _ :: _, _ :: _, [], _, h2 => by simp at h2
  | a :: p, b :: v, c :: G, h1, h2 => by
      simp only [List.map_cons, List.zipWith_cons_cons, List.sum_cons,
        List.length_cons]
      rw [Finset.sum_range_succ']
      simp only [List.getD_cons_succ, List.getD_cons_zero]
      rw [zipMulSubSum p v G (by simpa using h1) (by simpa using h2)]
      ring

theorem zipHuberSum :
    ∀ (v G : List ℝ), v.length = G.length →
      (List.zipWith (huberPoint 1) v G).sum =
        ∑ t ∈ Finset.range v.length, huberPoint 1 (v.getD t 0) (G.getD t 0)
  | [], _, _ => by simp
  | _ :: _, [], h => by simp at h
  | b :: v, c :: G, h => by
      simp only [List.zipWith_cons_cons, List.sum_cons, List.length_cons]
      rw [Finset.sum_range_succ']
      simp only [List.getD_cons_succ, List.getD_cons_zero]
      rw [zipHuberSum v G (by simpa using h)]
      ring

/-- C2: for equal-length action-probability, value and return sequences,
`compute_loss` returns `actor_loss + critic_loss` with
`actor_loss = -∑ log (p t) * (G t - v t)` and `critic_loss` the elementwise
Huber loss between values and returns summed over the steps. -/
theorem compute_loss_correct (p v G : List ℝ)
    (h1 : p.length = v.length) (h2 : v.length = G.length) :
    compute_loss p v G =
      -(∑ t ∈ Finset.range p.length,
          Real.log (p.getD t 0) * (G.getD t 0 - v.getD t 0)) +
      ∑ t ∈ Finset.range p.length, huberPoint 1 (v.getD t 0) (G.getD t 0) := by
  unfold compute_loss huber_loss
  dsimp only
  rw [zipMulSubSum p v G h1 h2, zipHuberSum v G h2, h1]

/-- Witness for C2 at `p = [1, 1]`, `v = [0, 2]`, `G = [1, 3]`. -/
theorem compute_loss_correct_witness :
    ([1, 1] : List ℝ).length = ([0, 2] : List ℝ).length ∧
    ([0, 2] : List ℝ).length = ([1, 3] : List ℝ).length ∧
    compute_loss [1, 1] [0, 2] [1, 3] =
      -(∑ t ∈ Finset.range ([1, 1] : List ℝ).length,
          Real.log (([1, 1] : List ℝ).getD t 0) *
            (([1, 3] : List ℝ).getD t 0 - ([0, 2] : List ℝ).getD t 0)) +
      ∑ t ∈ Finset.range ([1, 1] : List ℝ).length,
        huberPoint 1 (([0, 2] : List ℝ).getD t 0) (([1, 3] : List ℝ).getD t 0) :=
  ⟨by simp, by simp,
    compute_loss_correct [1, 1] [0, 2] [1, 3] (by simp) (by simp)⟩

/-! ## Standardization (`standardize = True` branch) -/

theorem eps_pos : 0 < eps := by unfold eps; norm_num

theorem sum_map_sub_mul (xs : List ℝ) (m c : ℝ) :
    (xs.map (fun x => (x - m) * c)).sum = (xs.sum - xs.length * m) * c := by
  induction xs with
  | nil => simp
  | cons a l ih =>
      simp only [List.map_cons, List.sum_cons, List.length_cons, ih]
      push_cast
      ring

theorem sum_map_mul_const (xs : List ℝ) (f : ℝ → ℝ) (k : ℝ) :
    (xs.map (fun x => f x * k)).sum = (xs.map f).sum * k := by
  induction xs with
  | nil => simp
  | cons a l ih =>
      simp only [List.map_cons, List.sum_cons, ih]
      ring

theorem length_ne_zero_real {xs : List ℝ} (h : xs ≠ []) :
    (xs.length : ℝ) ≠ 0 := by
  have : xs.length ≠ 0 := by
    simpa [List.length_eq_zero] using h
  exact_mod_cast this

/-- Subtracting the mean and dividing by any constant yields a list with
mean exactly zero (for a nonempty input). -/
theorem reduce_mean_standardized (xs : List ℝ) (h : xs ≠ []) (c : ℝ) :
    reduce_mean (xs.map (fun x => (x - reduce_mean xs) / c)) = 0 := by
  have hn := length_ne_zero_real h
  unfold reduce_mean
  rw [List.length_map]
  simp only [div_eq_mul_inv]
  rw [sum_map_sub_mul]
  have hz : xs.sum - (xs.length : ℝ) * (xs.sum * (xs.length : ℝ)⁻¹) = 0 := by
    field_simp
  rw [hz, zero_mul, zero_mul]

theorem variance_nonneg (xs : List ℝ) (m : ℝ) :
    0 ≤ reduce_mean (xs.map (fun x => (x - m) ^ 2)) := by
  unfold reduce_mean
  apply div_nonneg _ (by positivity)
  apply List.sum_nonneg
  intro y hy
  rcases List.mem_map.mp hy with ⟨x, _, rfl⟩
  positivity

/-- Subtracting the mean and dividing by a nonnegative constant `c` scales
the population standard deviation to `reduce_std xs / c`. -/
theorem reduce_std_standardized (xs : List ℝ) (h : xs ≠ []) (c : ℝ)
    (hc : 0 ≤ c) :
    reduce_std (xs.map (fun x => (x - reduce_mean xs) / c)) =
      reduce_std xs / c := by
  have hmean := reduce_mean_standardized xs h c
  unfold reduce_std
  rw [hmean]
  simp only [sub_zero, List.map_map, Function.comp_def]
  have hmap : (xs.map fun x => ((x - reduce_mean xs) / c) ^ 2) =
      xs.map fun x => (x - reduce_mean xs) ^ 2 * (c ^ 2)⁻¹ := by
    refine List.map_congr_left (fun x _ => ?_)
    rw [div_pow, div_eq_mul_inv]
  rw [hmap]
  have hscale : reduce_mean (xs.map fun x => (x - reduce_mean xs) ^ 2 * (c ^ 2)⁻¹) =
      reduce_mean (xs.map fun x => (x - reduce_mean xs) ^ 2) * (c ^ 2)⁻¹ := by
    unfold reduce_mean
    rw [sum_map_mul_const, List.length_map, List.length_map]
    ring
  rw [hscale, Real.sqrt_mul (variance_nonneg xs _), Real.sqrt_inv,
    Real.sqrt_sq hc, div_eq_mul_inv]

theorem reduce_mean_pair (a b : ℝ) : reduce_mean [a, b] = (a + b) / 2 := by
  unfold reduce_mean
  simp

theorem reduce_std_pair (a b : ℝ) : reduce_std [a, b] = |a - b| / 2 := by
  unfold reduce_std
  rw [reduce_mean_pair]
  have hmap : ([a, b] : List ℝ).map (fun x => (x - (a + b) / 2) ^ 2) =
      [((a - b) / 2) ^ 2, ((a - b) / 2) ^ 2] := by
    simp only [List.map_cons, List.map_nil]
    have e1 : (a - (a + b) / 2) ^ 2 = ((a - b) / 2) ^ 2 := by ring
    have e2 : (b - (a + b) / 2) ^ 2 = ((a - b) / 2) ^ 2 := by ring
    rw [e1, e2]
  rw [hmap, reduce_mean_pair]
  have hsame : (((a - b) / 2) ^ 2 + ((a - b) / 2) ^ 2) / 2 =
      ((a - b) / 2) ^ 2 := by ring
  rw [hsame, Real.sqrt_sq_eq_abs, abs_div]
  norm_num

theorem rawReturns_pair (gamma a b : ℝ) :
    rawReturns gamma [a, b] = [a + gamma * b, b] := by
  simp [rawReturns, returnScanRev]

/-- A list whose entries are all equal. -/
def isConstantList (xs : List ℝ) : Prop := ∀ a ∈ xs, ∀ b ∈ xs, a = b

/-- C5 (amended): with `standardize = true` the output is
`(G - mean G) / (std G + eps)` for the unstandardized returns `G`; for
every nonempty input the standardized output has mean exactly 0 and
standard deviation exactly `std G / (std G + eps)`, and the latter is
within `eps` of 1 whenever `std G` is at least 1.  (For non-constant
inputs with `std G` comparable to `eps` the standard deviation of the
output is far from 1, see the counterexample.) -/
theorem get_expected_return_standardize_correct
    (rewards : List ℝ) (gamma : ℝ) (h : rewards ≠ []) :
    get_expected_return rewards gamma true =
      (get_expected_return rewards gamma false).map
        (fun g => (g - reduce_mean (get_expected_return rewards gamma false)) /
          (reduce_std (get_expected_return rewards gamma false) + eps)) ∧
    reduce_mean (get_expected_return rewards gamma true) = 0 ∧
    reduce_std (get_expected_return rewards gamma true) =
      reduce_std (get_expected_return rewards gamma false) /
        (reduce_std (get_expected_return rewards gamma false) + eps) ∧
    (1 ≤ reduce_std (get_expected_return rewards gamma false) →
      |reduce_std (get_expected_return rewards gamma true) - 1| ≤ eps) := by
  have hG : rawReturns gamma rewards ≠ [] := by
    intro hc
    apply h
    have := rawReturns_length gamma rewards
    rw [hc] at this
    simpa [List.length_eq_zero] using this.symm
  rw [get_expected_return_false, get_expected_return_true]
  have hσ0 : 0 ≤ reduce_std (rawReturns gamma rewards) := by
    unfold reduce_std
    exact Real.sqrt_nonneg _
  have hc0 : 0 < reduce_std (rawReturns gamma rewards) + eps := by
    have := eps_pos
    linarith
  have hstd := reduce_std_standardized (rawReturns gamma rewards) hG
    (reduce_std (rawReturns gamma rewards) + eps) (le_of_lt hc0)
  refine ⟨rfl, reduce_mean_standardized _ hG _, hstd, ?_⟩
  intro hs
  rw [hstd]
  set σ := reduce_std (rawReturns gamma rewards) with hσ
  have hle : σ / (σ + eps) ≤ 1 := by
    rw [div_le_one hc0]
    linarith [eps_pos]
  rw [abs_sub_comm, abs_of_nonneg (by linarith : (0 : ℝ) ≤ 1 - σ / (σ + eps))]
  have hfrac : 1 - σ / (σ + eps) = eps / (σ + eps) := by
    field_simp
  rw [hfrac, div_le_iff₀ hc0]
  nlinarith [eps_pos]

/-- Witness for C5 at rewards `[3, 0]` with `gamma = 1`, where the
unstandardized returns are `[3, 0]` with standard deviation `3/2 ≥ 1`, so
the conditional closeness conjunct also fires. -/
theorem get_expected_return_standardize_correct_witness :
    (([3, 0] : List ℝ) ≠ [] ∧
      1 ≤ reduce_std (get_expected_return [3, 0] 1 false)) ∧
    (get_expected_return [3, 0] 1 true =
      (get_expected_return [3, 0] 1 false).map
        (fun g => (g - reduce_mean (get_expected_return [3, 0] 1 false)) /
          (reduce_std (get_expected_return [3, 0] 1 false) + eps)) ∧
    reduce_mean (get_expected_return [3, 0] 1 true) = 0 ∧
    reduce_std (get_expected_return [3, 0] 1 true) =
      reduce_std (get_expected_return [3, 0] 1 false) /
        (reduce_std (get_expected_return [3, 0] 1 false) + eps) ∧
    |reduce_std (get_expected_return [3, 0] 1 true) - 1| ≤ eps) := by
  have hraw : get_expected_return [3, 0] 1 false = [3, 0] := by
    rw [get_expected_return_false, rawReturns_pair]
    norm_num
  have hne : ([3, 0] : List ℝ) ≠ [] := by simp
  have hs : 1 ≤ reduce_std (get_expected_return [3, 0] 1 false) := by
    rw [hraw, reduce_std_pair]
    rw [abs_of_nonneg (by norm_num : (0 : ℝ) ≤ 3 - 0)]
    norm_num
  have hmain := get_expected_return_standardize_correct [3, 0] 1 hne
  exact ⟨⟨hne, hs⟩, hmain.1, hmain.2.1, hmain.2.2.1, hmain.2.2.2 hs⟩

/-- Counterexample to C5 as stated: for the non-constant reward sequence
`[eps, 0]` the unstandardized returns are `[eps, 0]` with standard
deviation `eps / 2`, and the standardized output has standard deviation
`(eps / 2) / (eps / 2 + eps) = 1/3`, which is not within `eps` of 1. -/
theorem get_expected_return_standardize_counterexample :
    ¬ isConstantList [eps, 0] ∧
    ¬ |reduce_std (get_expected_return [eps, 0] (1 / 2) true) - 1| ≤ eps := by
  constructor
  · intro hc
    have := hc eps (by simp) 0 (by simp)
    exact absurd this (ne_of_gt eps_pos)
  · have hraw : rawReturns (1 / 2) [eps, 0] = [eps, 0] := by
      rw [rawReturns_pair]
      norm_num
    have hne : ([eps, 0] : List ℝ) ≠ [] := by simp
    have hstd0 : reduce_std ([eps, 0] : List ℝ) = eps / 2 := by
      rw [reduce_std_pair]
      rw [abs_of_nonneg (by simpa using le_of_lt eps_pos : (0 : ℝ) ≤ eps - 0)]
      ring
    have hc0 : (0 : ℝ) ≤ reduce_std ([eps, 0] : List ℝ) + eps := by
      rw [hstd0]
      linarith [eps_pos]
    have hout : reduce_std (get_expected_return [eps, 0] (1 / 2) true) = 1 / 3 := by
      rw [get_expected_return_true, hraw,
        reduce_std_standardized _ hne _ hc0, hstd0]
      have h0 : eps ≠ 0 := ne_of_gt eps_pos
      rw [show eps / 2 + eps = 3 / 2 * eps by ring]
      field_simp
      ring
    rw [hout]
    intro hc
    rw [show |(1 : ℝ) / 3 - 1| = 2 / 3 by rw [abs_of_nonpos (by norm_num)]; norm_num] at hc
    have := eps_pos
    unfold eps at hc
    norm_num at hc

/-! ## The returns used by `train_step` (claim C10) -/

/-- Embedding of the call `returns = get_expected_return(rewards, gamma)`
inside `train_step`: the `standardize` argument is not passed, so the
default applies. -/
noncomputable def train_step_returns (rewards : List ℝ) (gamma : ℝ) : List ℝ :=
  get_expected_return rewards gamma

/-- C10: `train_step` always feeds the standardized returns to the loss:
the call omits `standardize`, whose default is `True`; and the
standardized returns genuinely differ from the raw discounted returns
(witnessed at rewards `[1, 0]` with `gamma = 1`). -/
theorem train_step_uses_standardized_returns :
    (∀ (rewards : List ℝ) (gamma : ℝ),
      train_step_returns rewards gamma = get_expected_return rewards gamma true) ∧
    train_step_returns [1, 0] 1 ≠ get_expected_return [1, 0] 1 false := by
  refine ⟨fun r g => rfl, ?_⟩
  have hraw2 : rawReturns 1 [1, 0] = [1, 0] := by
    rw [rawReturns_pair]
    norm_num
  have hμ : reduce_mean ([1, 0] : List ℝ) = 1 / 2 := by
    rw [reduce_mean_pair]
    norm_num
  have hσ : reduce_std ([1, 0] : List ℝ) = 1 / 2 := by
    rw [reduce_std_pair, abs_of_nonneg (by norm_num : (0 : ℝ) ≤ 1 - 0)]
    norm_num
  intro hc
  rw [show train_step_returns [1, 0] 1 = get_expected_return [1, 0] 1 true from rfl,
    get_expected_return_true, get_expected_return_false, hraw2, hμ, hσ] at hc
  simp only [List.map_cons, List.map_nil, List.cons.injEq] at hc
  have h1 : (1 - 1 / 2 : ℝ) / (1 / 2 + eps) = 1 := hc.1
  have hc0 : (0 : ℝ) < 1 / 2 + eps := by linarith [eps_pos]
  rw [div_eq_one_iff_eq (ne_of_gt hc0)] at h1
  have := eps_pos
  linarith

/-! ## Reward history window (claim C7) -/

/-- The training loop keeps the last rewards in
`collections.deque(maxlen = min_episodes_criterion)`. -/
def min_episodes_criterion : ℕ := 100

/-- Model of appending to a Python `collections.deque` with `maxlen`:
append on the right and drop from the left whatever exceeds capacity. -/
def dequeAppend (maxlen : ℕ) (q : List ℤ) (x : ℤ) : List ℤ :=
  let q' := q ++ [x]
  q'.drop (q'.length - maxlen)

/-- C7: the reward-history deque retains at most `min_episodes_criterion`
entries, and appending to a full window drops exactly the oldest entry,
keeping the most recent entries in FIFO order. -/
theorem episodes_reward_window_bounded (q : List ℤ) (x : ℤ)
    (h : q.length ≤ min_episodes_criterion) :
    (dequeAppend min_episodes_criterion q x).length ≤ min_episodes_criterion ∧
    (q.length = min_episodes_criterion →
      dequeAppend min_episodes_criterion q x = q.drop 1 ++ [x]) := by
  unfold min_episodes_criterion at h ⊢
  constructor
  · unfold dequeAppend
    simp only [List.length_drop, List.length_append, List.length_cons,
      List.length_nil]
    omega
  · intro hfull
    unfold dequeAppend
    simp only [List.length_append, List.length_cons, List.length_nil, hfull]
    norm_num
    cases q with
    | nil => simp at hfull
    | cons a l => simp

/-- Witness for C7 at a full window of one hundred entries. -/
theorem episodes_reward_window_bounded_witness :
    (List.replicate 100 (5 : ℤ)).length ≤ min_episodes_criterion ∧
    ((dequeAppend min_episodes_criterion (List.replicate 100 (5 : ℤ)) 7).length ≤
        min_episodes_criterion ∧
      ((List.replicate 100 (5 : ℤ)).length = min_episodes_criterion →
        dequeAppend min_episodes_criterion (List.replicate 100 (5 : ℤ)) 7 =
          (List.replicate 100 (5 : ℤ)).drop 1 ++ [7])) :=
  ⟨by simp [min_episodes_criterion],
    episodes_reward_window_bounded (List.replicate 100 (5 : ℤ)) 7
      (by simp [min_episodes_criterion])⟩

/-! ## Episode runner (`run_episode`) -/

/-- Model of `tf.nn.softmax` over the two action logits. -/
noncomputable def softmax (logits : Fin 2 → ℝ) : Fin 2 → ℝ :=
  fun i => Real.exp (logits i) / (Real.exp (logits 0) + Real.exp (logits 1))

/-- Model of `tf.random.categorical` on a row of two logits: the draw `u`
comes from the seeded random stream and action 0 is chosen precisely when
`u` falls below the probability mass of action 0. -/
noncomputable def categoricalSample (u : ℝ) (logits : Fin 2 → ℝ) : Fin 2 :=
  if u < softmax logits 0 then 0 else 1

/-- The external collaborators of `run_episode`: the actor-critic model
(observation to action logits and value estimate), the gym environment
step function (state and action to next state, reward and done flag, the
reward being the int32 tensor produced by `env_step`), and the seeded
random stream consumed by the categorical sampler, one draw per step. -/
structure EpisodeEnv (S : Type) where
  model : S → (Fin 2 → ℝ) × ℝ
  step : S → Fin 2 → S × ℤ × Bool
  rng : ℕ → ℝ

/-- The three per-step sequences recorded by `run_episode`. -/
structure EpisodeTrace where
  action_probs : List ℝ
  values : List ℝ
  rewards : List ℤ

/-- Embedding of the loop body of `run_episode`: at time `t` with current
state `s`, evaluate the model, sample an action from the logits, record
the probability of the sampled action and the value estimate, step the
environment, record the reward, and stop when the done flag fires or the
remaining fuel (the step cap) runs out. -/
noncomputable def runEpisodeAux {S : Type} (E : EpisodeEnv S) :
    S → ℕ → ℕ → EpisodeTrace
  | _, _, 0 => ⟨[], [], []⟩
  | s, t, fuel + 1 =>
      let mv := E.model s
      let action := categoricalSample (E.rng t) mv.1
      let prob := softmax mv.1 action
      let srd := E.step s action
      if srd.2.2 then ⟨[prob], [mv.2], [srd.2.1]⟩
      else
        let rest := runEpisodeAux E srd.1 (t + 1) fuel
        ⟨prob :: rest.action_probs, mv.2 :: rest.values, srd.2.1 :: rest.rewards⟩

/-- Embedding of `run_episode(initial_state, model, max_steps)`. -/
noncomputable def run_episode {S : Type} (E : EpisodeEnv S)
    (initial_state : S) (max_steps : ℕ) : EpisodeTrace :=
  runEpisodeAux E initial_state 0 max_steps

/-- The simulator state reached before step `t` of the episode. -/
noncomputable def epState {S : Type} (E : EpisodeEnv S) (s0 : S) : ℕ → S
  | 0 => s0
  | t + 1 =>
      let s := epState E s0 t
      (E.step s (categoricalSample (E.rng t) (E.model s).1)).1

/-- The done flag produced by the environment at step `t` of the episode. -/
noncomputable def epDone {S : Type} (E : EpisodeEnv S) (s0 : S) (t : ℕ) : Bool :=
  let s := epState E s0 t
  (E.step s (categoricalSample (E.rng t) (E.model s).1)).2.2

/-- The zero-based step at which the done flag first fires within the cap,
if any. -/
noncomputable def firstDoneIdx {S : Type} (E : EpisodeEnv S) (s0 : S)
    (cap : ℕ) : Option ℕ :=
  (List.range cap).find? (fun t => epDone E s0 t)

theorem sub_succ_helper (k t : ℕ) (h : t + 1 ≤ k) :
    k + 1 - (t + 1) + 1 = k + 1 - t := by omega

theorem le_cap_helper (k cap : ℕ) (h : k < 0 + cap) : k + 1 - 0 ≤ cap := by
  omega

theorem runEpisodeAux_lengths {S : Type} (E : EpisodeEnv S) :
    ∀ (fuel : ℕ) (s : S) (t : ℕ),
      (runEpisodeAux E s t fuel).action_probs.length =
        (runEpisodeAux E s t fuel).values.length ∧
      (runEpisodeAux E s t fuel).values.length =
        (runEpisodeAux E s t fuel).rewards.length
  | 0, s, t => by simp [runEpisodeAux]
  | fuel + 1, s, t => by
      have ih := runEpisodeAux_lengths E fuel
        (E.step s (categoricalSample (E.rng t) (E.model s).1)).1 (t + 1)
      cases hd : (E.step s (categoricalSample (E.rng t) (E.model s).1)).2.2 with
      | true => simp [runEpisodeAux, hd]
      | false => simp [runEpisodeAux, hd, ih.1, ih.2]

theorem runEpisodeAux_rewards_length {S : Type} (E : EpisodeEnv S) (s0 : S) :
    ∀ (fuel t : ℕ),
      (runEpisodeAux E (epState E s0 t) t fuel).rewards.length =
        (match (List.range' t fuel).find? (fun k => epDone E s0 k) with
         | some k => k + 1 - t
         | none => fuel)
  | 0, t => by simp [runEpisodeAux]
  | fuel + 1, t => by
      rw [List.range'_succ]
      cases hd : epDone E s0 t with
      | true =>
          have hdx : (E.step (epState E s0 t)
              (categoricalSample (E.rng t) (E.model (epState E s0 t)).1)).2.2 =
              true := hd
          rw [List.find?_cons_of_pos _ (by simpa using hd)]
          simp [runEpisodeAux, hdx]
      | false =>
          have hdx : (E.step (epState E s0 t)
              (categoricalSample (E.rng t) (E.model (epState E s0 t)).1)).2.2 =
              false := hd
          have hstep : (E.step (epState E s0 t)
              (categoricalSample (E.rng t) (E.model (epState E s0 t)).1)).1 =
              epState E s0 (t + 1) := rfl
          have ih := runEpisodeAux_rewards_length E s0 fuel (t + 1)
          rw [List.find?_cons_of_neg _ (by simpa using hd)]
          simp only [runEpisodeAux, hdx, if_false, Bool.false_eq_true]
          rw [hstep]
          simp only [List.length_cons]
          cases hf : (List.range' (t + 1) fuel).find? (fun k => epDone E s0 k) with
          | some k =>
              rw [hf] at ih
              dsimp only at ih
              rw [ih]
              have hk : t + 1 ≤ k := (List.mem_range'_1.mp
                (List.mem_of_find?_eq_some hf)).1
              dsimp only
              exact sub_succ_helper k t hk
          | none =>
              rw [hf] at ih
              dsimp only at ih
              rw [ih]

/-- C6: the three sequences recorded by `run_episode` have equal length;
that length never exceeds `max_steps`; it equals one more than the
zero-based step at which the done flag first fires (i.e. the number of
steps executed up to and including the firing step) when done fires within
the cap, and equals `max_steps` exactly when done never fires within the
cap. -/
theorem run_episode_trace_lengths {S : Type} (E : EpisodeEnv S) (s0 : S)
    (cap : ℕ) :
    (run_episode E s0 cap).action_probs.length =
      (run_episode E s0 cap).values.length ∧
    (run_episode E s0 cap).values.length =
      (run_episode E s0 cap).rewards.length ∧
    (run_episode E s0 cap).rewards.length =
      (match firstDoneIdx E s0 cap with
       | some k => k + 1
       | none => cap) ∧
    (run_episode E s0 cap).rewards.length ≤ cap := by
  have hlen := runEpisodeAux_lengths E cap s0 0
  have hrew := runEpisodeAux_rewards_length E s0 cap 0
  rw [show epState E s0 0 = s0 from rfl] at hrew
  have hrange : List.range cap = List.range' 0 cap := List.range_eq_range' cap
  refine ⟨hlen.1, hlen.2, ?_, ?_⟩
  · rw [show run_episode E s0 cap = runEpisodeAux E s0 0 cap from rfl, hrew]
    unfold firstDoneIdx
    rw [hrange]
    cases (List.range' 0 cap).find? (fun k => epDone E s0 k) with
    | some k => simp
    | none => rfl
  · rw [show run_episode E s0 cap = runEpisodeAux E s0 0 cap from rfl, hrew]
    cases hf : (List.range' 0 cap).find? (fun k => epDone E s0 k) with
    | some k =>
        have hlt : k < 0 + cap := (List.mem_range'_1.mp
          (List.mem_of_find?_eq_some hf)).2
        dsimp only
        exact le_cap_helper k cap hlt
    | none =>
        dsimp only
        exact Nat.le_refl cap

/-- C9: the episode runner is deterministic: two runs over the same model
parameters, the same environment transition function, the same seeded
random stream and the same initial observation produce identical traces. -/
theorem run_episode_deterministic {S : Type} (E1 E2 : EpisodeEnv S)
    (s1 s2 : S) (cap : ℕ)
    (hm : E1.model = E2.model) (hs : E1.step = E2.step)
    (hr : E1.rng = E2.rng) (h0 : s1 = s2) :
    run_episode E1 s1 cap = run_episode E2 s2 cap := by
  cases E1
  cases E2
  simp only at hm hs hr
  subst hm
  subst hs
  subst hr
  subst h0
  rfl

/-- A concrete instantiation of the episode collaborators: a counter
environment that terminates after three steps, a constant model and a
constant random stream. -/
noncomputable def demoEnv : EpisodeEnv ℕ where
  model := fun _ => (fun _ => 0, 1)
  step := fun s _ => (s + 1, 1, decide (3 ≤ s + 1))
  rng := fun _ => 1 / 4

/-- Witness for C9: two runs of `demoEnv` from the same seed and initial
state coincide. -/
theorem run_episode_deterministic_witness :
    demoEnv.model = demoEnv.model ∧ demoEnv.step = demoEnv.step ∧
    demoEnv.rng = demoEnv.rng ∧ (0 : ℕ) = 0 ∧
    run_episode demoEnv 0 5 = run_episode demoEnv 0 5 :=
  ⟨rfl, rfl, rfl, rfl,
    run_episode_deterministic demoEnv demoEnv 0 0 5 rfl rfl rfl rfl⟩

/-! ## Training loop (claim C8) -/

/-- Maximum number of training episodes, `max_episodes = 10000`. -/
def max_episodes : ℕ := 10000

/-- The fixed reward threshold, `reward_threshold = 195`. -/
def reward_threshold : ℚ := 195

/-- Model of `statistics.mean(episodes_reward)`: the arithmetic mean of
the reward window, as an exact rational. -/
def running_mean (w : List ℤ) : ℚ := (w.sum : ℚ) / w.length

/-- Embedding of the training loop body: at episode `i` with the current
reward window, append the episode reward to the deque, recompute the
running mean, and break when the mean exceeds the threshold and
`i >= min_episodes_criterion`; otherwise continue with the next episode
until the episode budget (the fuel) runs out.  The result is the number of
episodes executed.  The per-episode total reward is abstracted as the
function `rewardOf`. -/
def trainLoopAux (rewardOf : ℕ → ℤ) : List ℤ → ℕ → ℕ → ℕ
  | _, _, 0 => 0
  | window, i, fuel + 1 =>
      let w := dequeAppend min_episodes_criterion window (rewardOf i)
      if running_mean w > reward_threshold ∧ i ≥ min_episodes_criterion then 1
      else 1 + trainLoopAux rewardOf w (i + 1) fuel

/-- The number of episodes the training loop executes for episode rewards
`rewardOf`: it starts from an empty deque and episode index 0 with budget
`max_episodes`. -/
def trainLoopCount (rewardOf : ℕ → ℤ) : ℕ :=
  trainLoopAux rewardOf [] 0 max_episodes

/-- The reward window contents after the first `i` episodes: the last
`min_episodes_criterion` of the rewards of episodes `0 .. i-1`. -/
def windowPrefix (rewardOf : ℕ → ℤ) (i : ℕ) : List ℤ :=
  ((List.range i).map rewardOf).drop (i - min_episodes_criterion)

/-- The reward window contents just after episode `i` is pushed. -/
def windowAt (rewardOf : ℕ → ℤ) (i : ℕ) : List ℤ :=
  windowPrefix rewardOf (i + 1)

/-- The early-stopping condition of the source loop at episode index `i`:
the running mean of the window exceeds the threshold and the zero-based
episode index has reached `min_episodes_criterion`. -/
def stopCond (rewardOf : ℕ → ℤ) (i : ℕ) : Bool :=
  decide (running_mean (windowAt rewardOf i) > reward_threshold ∧
    i ≥ min_episodes_criterion)

/-- The first episode index at which the stopping condition fires, if any
within the episode budget. -/
def firstStopIdx (rewardOf : ℕ → ℤ) : Option ℕ :=
  (List.range max_episodes).find? (stopCond rewardOf)

theorem dequeAppend_drop (N : ℕ) (L : List ℤ) (x : ℤ) :
    dequeAppend N (L.drop (L.length - N)) x =
      (L ++ [x]).drop (L.length + 1 - N) := by
  unfold dequeAppend
  rw [List.drop_append_eq_append_drop, List.drop_append_eq_append_drop,
    List.drop_drop]
  have hlen : ((L.drop (L.length - N)) ++ [x]).length =
      (L.length - (L.length - N)) + 1 := by simp
  rw [hlen]
  congr 1
  · congr 1
    omega
  · congr 1
    simp only [List.length_drop]
    omega

theorem windowPrefix_step (f : ℕ → ℤ) (i : ℕ) :
    dequeAppend min_episodes_criterion (windowPrefix f i) (f i) =
      windowPrefix f (i + 1) := by
  unfold windowPrefix
  have hrange : (List.range (i + 1)).map f = ((List.range i).map f) ++ [f i] := by
    rw [List.range_succ, List.map_append]
    rfl
  rw [hrange]
  have hlen : ((List.range i).map f).length = i := by simp
  conv_lhs =>
    rw [show i - min_episodes_criterion =
      ((List.range i).map f).length - min_episodes_criterion by rw [hlen]]
  rw [dequeAppend_drop, hlen]

theorem trainLoopAux_spec (f : ℕ → ℤ) :
    ∀ (fuel i : ℕ),
      trainLoopAux f (windowPrefix f i) i fuel =
        (match (List.range' i fuel).find? (stopCond f) with
         | some j => j + 1 - i
         | none => fuel)
  | 0, i => by simp [trainLoopAux]
  | fuel + 1, i => by
      rw [List.range'_succ]
      cases hc : stopCond f i with
      | true =>
          have hP : running_mean (windowAt f i) > reward_threshold ∧
              i ≥ min_episodes_criterion := of_decide_eq_true hc
          rw [List.find?_cons_of_pos _ hc]
          unfold trainLoopAux
          rw [windowPrefix_step]
          dsimp only
          rw [if_pos (show running_mean (windowPrefix f (i + 1)) > reward_threshold ∧
            i ≥ min_episodes_criterion from hP)]
          exact (Nat.add_sub_cancel_left i 1).symm
      | false =>
          have hnP : ¬ (running_mean (windowAt f i) > reward_threshold ∧
              i ≥ min_episodes_criterion) := of_decide_eq_false hc
          rw [List.find?_cons_of_neg _ (by simp [hc])]
          unfold trainLoopAux
          rw [windowPrefix_step]
          dsimp only
          rw [if_neg (show ¬ (running_mean (windowPrefix f (i + 1)) > reward_threshold ∧
            i ≥ min_episodes_criterion) from hnP)]
          have ih := trainLoopAux_spec f fuel (i + 1)
          rw [ih]
          cases hf : (List.range' (i + 1) fuel).find? (stopCond f) with
          | some j =>
              have hj : i + 1 ≤ j := (List.mem_range'_1.mp
                (List.mem_of_find?_eq_some hf)).1
              dsimp only
              rw [Nat.add_comm 1 (j + 1 - (i + 1))]
              exact sub_succ_helper j i hj
          | none =>
              dsimp only
              exact Nat.add_comm 1 fuel

/-- C8 (amended): the training loop executes at most `max_episodes`
training steps, and it stops early exactly at the first episode index at
which the running mean of the reward window exceeds the threshold and the
zero-based episode index `i` satisfies `i >= min_episodes_criterion`
(i.e. strictly more than `min_episodes_criterion` episodes have elapsed);
when no such index exists within the budget it runs exactly
`max_episodes` episodes.  No other termination criterion exists. -/
theorem training_loop_termination (f : ℕ → ℤ) :
    trainLoopCount f ≤ max_episodes ∧
    trainLoopCount f =
      (match firstStopIdx f with
       | some j => j + 1
       | none => max_episodes) := by
  have hempty : windowPrefix f 0 = [] := by
    unfold windowPrefix
    simp
  have hspec := trainLoopAux_spec f max_episodes 0
  rw [hempty] at hspec
  have hcount : trainLoopCount f = trainLoopAux f [] 0 max_episodes := rfl
  have hrange : List.range max_episodes = List.range' 0 max_episodes :=
    List.range_eq_range' max_episodes
  constructor
  · rw [hcount, hspec]
    cases hf : (List.range' 0 max_episodes).find? (stopCond f) with
    | some j =>
        have hlt : j < 0 + max_episodes := (List.mem_range'_1.mp
          (List.mem_of_find?_eq_some hf)).2
        dsimp only
        exact le_cap_helper j max_episodes hlt
    | none =>
        dsimp only
        exact Nat.le_refl max_episodes
  · rw [hcount, hspec]
    unfold firstStopIdx
    rw [hrange]
    cases (List.range' 0 max_episodes).find? (stopCond f) with
    | some j => simp
    | none => rfl

/-- The stopping condition as the claim words it, for comparison with the
source's `stopCond`: the mean exceeds the threshold AND at least
`min_episodes_criterion` episodes have elapsed — after episode index `i`
completes, `i + 1` episodes have elapsed. -/
def specStopCond (rewardOf : ℕ → ℤ) (i : ℕ) : Bool :=
  decide (running_mean (windowAt rewardOf i) > reward_threshold ∧
    i + 1 ≥ min_episodes_criterion)

/-- The episode count the claim predicts: stop right after the first
episode index satisfying `specStopCond`, else run the full budget. -/
def specPredictedCount (rewardOf : ℕ → ℤ) : ℕ :=
  match (List.range max_episodes).find? (specStopCond rewardOf) with
  | some j => j + 1
  | none => max_episodes

theorem find?_congr_pred {p q : ℕ → Bool} :
    ∀ (l : List ℕ), (∀ a ∈ l, p a = q a) → l.find? p = l.find? q
  | [], _ => rfl
  | a :: l, h => by
      rw [List.find?_cons, List.find?_cons, h a (List.mem_cons_self a l)]
      cases q a with
      | true => rfl
      | false =>
          exact find?_congr_pred l (fun b hb => h b (List.mem_cons_of_mem a hb))

theorem find?_range'_first (K : ℕ) :
    ∀ (n s : ℕ), s ≤ K → K < s + n →
      (List.range' s n).find? (fun j => decide (K ≤ j)) = some K
  | 0, s, h1, h2 => by
      rw [Nat.add_zero] at h2
      exact absurd h1 (Nat.not_le_of_lt h2)
  | n + 1, s, h1, h2 => by
      rw [List.range'_succ]
      by_cases hs : K ≤ s
      · have hKs : K = s := Nat.le_antisymm hs h1
        rw [List.find?_cons_of_pos _ (by simp [hs])]
        rw [hKs]
      · rw [List.find?_cons_of_neg _ (by simp [hs])]
        have hle : s + 1 ≤ K := Nat.succ_le_of_lt (Nat.lt_of_not_le hs)
        have hlt : K < s + 1 + n := by
          rw [Nat.add_assoc s 1 n, Nat.add_comm 1 n]
          exact h2
        exact find?_range'_first K n (s + 1) hle hlt

theorem windowAt_const (c : ℤ) (j : ℕ) :
    windowAt (fun _ => c) j =
      List.replicate (j + 1 - (j + 1 - min_episodes_criterion)) c := by
  unfold windowAt windowPrefix
  rw [List.map_const', List.length_range, List.drop_replicate]

theorem running_mean_replicate (m : ℕ) (hm : 0 < m) (c : ℤ) :
    running_mean (List.replicate m c) = (c : ℚ) := by
  unfold running_mean
  rw [List.sum_replicate, List.length_replicate]
  have hm' : (m : ℚ) ≠ 0 := by
    exact_mod_cast Nat.pos_iff_ne_zero.mp hm
  rw [nsmul_eq_mul]
  push_cast
  exact mul_div_cancel_left₀ _ hm'

theorem stopCond_const (j : ℕ) :
    stopCond (fun _ => 1000) j = decide (j ≥ min_episodes_criterion) := by
  unfold stopCond
  rw [decide_eq_decide]
  have hmean : running_mean (windowAt (fun _ => 1000) j) = 1000 := by
    rw [windowAt_const, running_mean_replicate]
    · norm_num
    · unfold min_episodes_criterion
      omega
  rw [hmean]
  norm_num [reward_threshold]

theorem specStopCond_const (j : ℕ) :
    specStopCond (fun _ => 1000) j = decide (j + 1 ≥ min_episodes_criterion) := by
  unfold specStopCond
  rw [decide_eq_decide]
  have hmean : running_mean (windowAt (fun _ => 1000) j) = 1000 := by
    rw [windowAt_const, running_mean_replicate]
    · norm_num
    · unfold min_episodes_criterion
      omega
  rw [hmean]
  norm_num [reward_threshold]

/-- Counterexample to C8 as stated: with a constant episode reward of
1000 the running mean (1000) exceeds the threshold from the first
episode, so under the claim's reading (at least `min_episodes_criterion`
episodes elapsed, i.e. episode index 99) the loop should stop after 100
episodes; the code's condition is `i >= min_episodes_criterion`, so it
actually runs 101 episodes. -/
theorem training_loop_stop_counterexample :
    specPredictedCount (fun _ => 1000) = 100 ∧
    trainLoopCount (fun _ => 1000) = 101 := by
  constructor
  · unfold specPredictedCount
    rw [show List.range max_episodes = List.range' 0 max_episodes from
      List.range_eq_range' _]
    rw [find?_congr_pred _ (fun a _ => specStopCond_const a)]
    have heq : (fun j => decide (j + 1 ≥ min_episodes_criterion)) =
        (fun j => decide (99 ≤ j)) := by
      funext j
      rw [decide_eq_decide]
      show min_episodes_criterion ≤ j + 1 ↔ 99 ≤ j
      unfold min_episodes_criterion
      omega
    rw [heq]
    rw [find?_range'_first 99 max_episodes 0 (Nat.zero_le _)
      (by norm_num [max_episodes])]
  · have hempty : windowPrefix (fun _ => 1000) 0 = [] := by
      unfold windowPrefix
      simp
    have hchar := trainLoopAux_spec (fun _ => 1000) max_episodes 0
    rw [hempty] at hchar
    show trainLoopAux (fun _ => 1000) [] 0 max_episodes = 101
    rw [hchar]
    rw [find?_congr_pred _ (fun a _ => stopCond_const a)]
    have heq : (fun j => decide (j ≥ min_episodes_criterion)) =
        (fun j => decide (100 ≤ j)) := by
      funext j
      rw [decide_eq_decide]
      show min_episodes_criterion ≤ j ↔ 100 ≤ j
      unfold min_episodes_criterion
      exact Iff.rfl
    rw [heq]
    rw [find?_range'_first 100 max_episodes 0 (Nat.zero_le _)
      (by norm_num [max_episodes])]

end CartPole
